import Mathlib

/-
Verification of the `engineering_to_tt.py` pipeline: a shallow embedding of
its data model and operations (event parsing from iCalendar summaries,
scoped substitutions, exclusion filtering, sorting/grouping into the
timetable tree, and md5-based series identifiers), with theorems checking
the natural-language specification against the code.

Modelling conventions:
  - Python dicts of strings become association lists (`List (key × value)`);
    `k in d` / `d[k]` become `List.lookup`.
  - Python datetimes (already normalised to the single fixed timezone by the
    parser, per the asserts in `EngineeringEvent.__init__`) are modelled as a
    calendar date index plus a time-of-day index, compared lexicographically,
    which is chronological order within one timezone.
  - Fallible code returns `Except`; an uncaught Python exception is an
    `Except.error` value.
  - Char classes of the summary regex are modelled over ASCII (all inputs of
    interest are ASCII; Python's `[A-Z]`, `[A-Z0-9]`, `\d` and `.` agree with
    the ASCII reading there).
-/

/-- A timezone-normalised Python datetime: `date` is the calendar-date index
(`datetime.date()`), `tod` the time-of-day within that date.  Chronological
comparison of same-timezone datetimes is lexicographic on `(date, tod)`. -/
structure PyDateTime where
  date : Nat
  tod : Nat
deriving DecidableEq, Repr

/-- The `EngineeringEvent` value object of the source: the six strings parsed
from the SUMMARY plus the two timestamps and the record uid.  Python's `end`
attribute is spelled `end_` (`end` is reserved in Lean). -/
structure EngineeringEvent where
  part : String
  paper : String
  name : String
  event_type : String
  staff_name : String
  location : String
  start : PyDateTime
  end_ : PyDateTime
  uid : String
deriving DecidableEq, Repr

/-! ## Substitutor -/

/-- The `substitutions` JSON object: scope key (a part name or `"__all__"`)
to category (`"parts"` / `"papers"` / `"event_types"`) to raw-value-to-display
table. -/
abbrev Substitutions : Type :=
  List (String × List (String × List (String × String)))

/-- The nested membership test and access of `Substitutor.lookup`:
`section in self.substitutions`, `value_type in self.substitutions[section]`,
`value in self.substitutions[section][value_type]`, returning
`self.substitutions[section][value_type][value]` when all three hold. -/
def tableFind (subs : Substitutions) (sect vt v : String) : Option String :=
  match List.lookup sect subs with
  | none => none
  | some cats =>
    match List.lookup vt cats with
    | none => none
    | some tbl => List.lookup v tbl

/-- `Substitutor.lookup(self, section, value_type, value)`: return the nested
table entry when present; otherwise retry once with scope `"__all__"`; if the
scope already is `"__all__"`, return `value` unchanged. -/
def Substitutor.lookup (subs : Substitutions) (sect vt v : String) : String :=
  match tableFind subs sect vt v with
  | some mapped => mapped
  | none => if _h : sect = "__all__" then v else Substitutor.lookup subs "__all__" vt v
termination_by (if sect = "__all__" then 0 else 1)
decreasing_by simp [*]

/-- `EngineeringEvent.with_substitutions`: re-derive the event, passing
`part`, `paper` and `event_type` through `lookup` with the *original* part as
scope, and every other field through unchanged. -/
def EngineeringEvent.with_substitutions (e : EngineeringEvent)
    (subs : Substitutions) : EngineeringEvent :=
  let part := e.part
  { part := Substitutor.lookup subs part "parts" part
    paper := Substitutor.lookup subs part "papers" e.paper
    name := e.name
    event_type := Substitutor.lookup subs part "event_types" e.event_type
    staff_name := e.staff_name
    location := e.location
    start := e.start
    end_ := e.end_
    uid := e.uid }

/-! ## Excludor -/

/-- A Python attribute value reachable from an exclusion key: the string
fields, or one of the two datetime fields. -/
inductive FieldValue where
  | str (s : String)
  | time (t : PyDateTime)
deriving DecidableEq

/-- `getattr(event, key, None)` over the nine attributes of
`EngineeringEvent`; any other key yields the `None` default. -/
def getField (e : EngineeringEvent) (key : String) : Option FieldValue :=
  if key = "part" then some (.str e.part)
  else if key = "paper" then some (.str e.paper)
  else if key = "name" then some (.str e.name)
  else if key = "event_type" then some (.str e.event_type)
  else if key = "staff_name" then some (.str e.staff_name)
  else if key = "location" then some (.str e.location)
  else if key = "start" then some (.time e.start)
  else if key = "end" then some (.time e.end_)
  else if key = "uid" then some (.str e.uid)
  else none

/-- `getattr(event, key, None) == exclusion[key]` for a (string-valued) rule
entry: `None` and datetimes never equal a JSON string. -/
def fieldEq (e : EngineeringEvent) (key v : String) : Bool :=
  match getField e key with
  | some (.str s) => s = v
  | some (.time _) => false
  | none => false

/-- One exclusion rule: a partial map from field names to required values. -/
abbrev ExclusionRule : Type := List (String × String)

/-- The `all(...)` generator in `Excludor.is_excluded`: every entry of the
rule agrees with the event. -/
def ruleMatches (e : EngineeringEvent) : ExclusionRule → Bool
  | [] => true
  | kv :: rest => fieldEq e kv.1 kv.2 && ruleMatches e rest

/-- `Excludor.is_excluded`: loop over the exclusions, returning `True` on the
first rule whose entries all match, `False` if none does. -/
def Excludor.is_excluded : List ExclusionRule → EngineeringEvent → Bool
  | [], _ => false
  | excl :: rest, e =>
    if ruleMatches e excl then true else Excludor.is_excluded rest e

/-! ## The summary regex

`EngineeringEvent.ICAL_SUMMARY_PATTERN` is
`^(\d)([A-Z0-9]+)/(.+)\[(\d+)\]([A-Z+]) (.*)\((.*)\)$`, matched with
`re.match` (anchored at the start).  We model it with a tiny backtracking
matcher for exactly the constructs the pattern uses: literal characters,
single-character capturing classes, and greedy capturing `+`/`*` over a
class.  Greedy quantifiers try the longest prefix of class characters first
and backtrack to shorter ones, as Python's engine does.  The final `$`
accepts end-of-string or a sole trailing newline, as in Python. -/

/-- One element of the (linear) pattern. -/
inductive RElem where
  | lit (c : Char)
  | one (p : Char → Bool)
  | many1 (p : Char → Bool)
  | many0 (p : Char → Bool)

/-- Candidate match lengths for a greedy quantifier whose class matches at
most `k` leading characters: `k, k-1, ..., lo` (longest first). -/
def greedyLens : Nat → Nat → List Nat
  | 0, lo => if lo = 0 then [0] else []
  | k + 1, lo => if k + 1 < lo then [] else (k + 1) :: greedyLens k lo

/-- Match a pattern against a character list, returning the captured groups
in order, or `none`.  Exhausted patterns accept `[]` or `['\n']` (Python's
`$`). -/
def matchSeq : List RElem → List Char → Option (List (List Char))
  | [], s => if s = [] ∨ s = ['\n'] then some [] else none
  | .lit c :: rest, s =>
    match s with
    | [] => none
    | c' :: s' => if c' = c then matchSeq rest s' else none
  | .one p :: rest, s =>
    match s with
    | [] => none
    | c :: s' => if p c then (matchSeq rest s').map (fun gs => [c] :: gs) else none
  | .many1 p :: rest, s =>
    (greedyLens (s.takeWhile p).length 1).findSome? fun i =>
      (matchSeq rest (s.drop i)).map (fun gs => s.take i :: gs)
  | .many0 p :: rest, s =>
    (greedyLens (s.takeWhile p).length 0).findSome? fun i =>
      (matchSeq rest (s.drop i)).map (fun gs => s.take i :: gs)

/-- `\d` (ASCII). -/
def isAsciiDigitCh (c : Char) : Bool := '0'.toNat ≤ c.toNat && c.toNat ≤ '9'.toNat

/-- `[A-Z]`. -/
def isUpperCh (c : Char) : Bool := 'A'.toNat ≤ c.toNat && c.toNat ≤ 'Z'.toNat

/-- `[A-Z0-9]`. -/
def isUpperOrDigit (c : Char) : Bool := isUpperCh c || isAsciiDigitCh c

/-- `[A-Z+]`. -/
def isUpperOrPlus (c : Char) : Bool := isUpperCh c || c = '+'

/-- `.` (anything but a newline; `re.DOTALL` is not set). -/
def isDotCh (c : Char) : Bool := c ≠ '\n'

/-- `EngineeringEvent.ICAL_SUMMARY_PATTERN`, element by element:
`^ (\d) ([A-Z0-9]+) / (.+) \[ (\d+) \] ([A-Z+]) ␣ (.*) \( (.*) \) $`. -/
def ICAL_SUMMARY_PATTERN : List RElem :=
  [.one isAsciiDigitCh, .many1 isUpperOrDigit, .lit '/', .many1 isDotCh, .lit '[',
   .many1 isAsciiDigitCh, .lit ']', .one isUpperOrPlus, .lit ' ', .many0 isDotCh,
   .lit '(', .many0 isDotCh, .lit ')']

/-! ## The event parser -/

/-- A raw iCalendar VEVENT as the parser sees it: the four fields it reads,
each possibly absent.  `DTSTART`/`DTEND` are modelled post-normalisation
(the `astimezone` call maps them into the fixed timezone; we work with the
normalised values directly). -/
structure ICalEvent where
  summary : Option String
  dtstart : Option PyDateTime
  dtend : Option PyDateTime
  uid : Option String
deriving DecidableEq, Repr

/-- The two `EventParseException` raise sites of `from_ical_event`. -/
inductive ParseKind where
  | missingField (field : String)
  | malformedSummary
deriving DecidableEq, Repr

/-- How `from_ical_event` can blow up: a raised `EventParseException`, or the
uncaught `KeyError` from the unguarded `ical_event["UID"]` subscript. -/
inductive FromIcalError where
  | eventParse (k : ParseKind)
  | keyError (key : String)
deriving DecidableEq, Repr

/-- `EngineeringEvent.from_ical_event`: check SUMMARY is present, match the
pattern, check DTSTART and DTEND, then build the event from capture groups
1,2,3,5,6,7 (group 4, the term week, is dropped) and the normalised
timestamps; the `UID` subscript is unguarded, so its absence is a `KeyError`,
not an `EventParseException`. -/
def EngineeringEvent.from_ical_event (ev : ICalEvent) :
    Except FromIcalError EngineeringEvent :=
  match ev.summary with
  | none => .error (.eventParse (.missingField "SUMMARY"))
  | some summary =>
    match matchSeq ICAL_SUMMARY_PATTERN summary.toList with
    | none => .error (.eventParse .malformedSummary)
    | some gs =>
      match ev.dtstart with
      | none => .error (.eventParse (.missingField "DTSTART"))
      | some start =>
        match ev.dtend with
        | none => .error (.eventParse (.missingField "DTEND"))
        | some end_ =>
          match ev.uid with
          | none => .error (.keyError "UID")
          | some uid =>
            .ok { part := String.mk (gs.getD 0 [])
                  paper := String.mk (gs.getD 1 [])
                  name := String.mk (gs.getD 2 [])
                  event_type := String.mk (gs.getD 4 [])
                  staff_name := String.mk (gs.getD 5 [])
                  location := String.mk (gs.getD 6 [])
                  start := start
                  end_ := end_
                  uid := uid }

/-! ## The sort order

Python's `sorted(events, key=event_sort_key)` sorts by the tuple
`(part, paper, name, start)`: lexicographic comparison with code-point
string comparison on the first three components and chronological comparison
on the datetime.  We spell out that comparison as a boolean relation. -/

/-- Python string `<`: lexicographic on code points. -/
def charsLt : List Char → List Char → Bool
  | [], [] => false
  | [], _ :: _ => true
  | _ :: _, [] => false
  | a :: as, b :: bs =>
    if a.toNat < b.toNat then true
    else if b.toNat < a.toNat then false
    else charsLt as bs

/-- Python string `<` on `String`. -/
def strLt (a b : String) : Bool := charsLt a.toList b.toList

/-- Chronological `≤` on same-timezone datetimes. -/
def dtLe (s t : PyDateTime) : Bool :=
  s.date < t.date || (s.date = t.date && s.tod ≤ t.tod)

/-- `event_sort_key(event)`: the tuple `(part, paper, name, start)`. -/
def event_sort_key (e : EngineeringEvent) : String × String × String × PyDateTime :=
  (e.part, e.paper, e.name, e.start)

/-- One step of Python's lexicographic tuple comparison: strictly below on
the first component, or equal there and `≤` on the remainder. -/
def lexStep (lt : α → α → Bool) [DecidableEq α] (le2 : β → β → Bool) (x y : α × β) : Bool :=
  lt x.1 y.1 || (x.1 = y.1 && le2 x.2 y.2)

/-- Python tuple `≤` on sort keys: lexicographic over the four components. -/
def keyLe : (String × String × String × PyDateTime) →
    (String × String × String × PyDateTime) → Bool :=
  lexStep strLt (lexStep strLt (lexStep strLt dtLe))

/-- The comparison `sorted` effectively sorts `events` by. -/
def evLe (a b : EngineeringEvent) : Bool := keyLe (event_sort_key a) (event_sort_key b)

/-- Insert into a sorted list, before the first element not below `a`. -/
def orderedInsertB (le : α → α → Bool) (a : α) : List α → List α
  | [] => [a]
  | b :: l => if le a b then a :: b :: l else b :: orderedInsertB le a l

/-- A stable sort.  Python's `sorted` is a stable sort by `le`; a stable sort
by a total preorder is extensionally unique, so insertion sort computes the
same list `timsort` does. -/
def sortedBy (le : α → α → Bool) : List α → List α
  | [] => []
  | b :: l => orderedInsertB le b (sortedBy le l)

/-! ## Grouping -/

/-- `itertools.groupby(xs, key)`: split into maximal consecutive runs with
equal key, returning `(key, run)` pairs. -/
def groupRuns [DecidableEq κ] (key : α → κ) : List α → List (κ × List α)
  | [] => []
  | a :: rest =>
    match groupRuns key rest with
    | [] => [(key a, [a])]
    | (k, g) :: gs =>
      if key a = k then (k, a :: g) :: gs else (key a, [a]) :: (k, g) :: gs

/-! ## `external_id`: md5 over a fixed seed plus the concatenated path -/

/-- `2^32`. -/
def M32 : Nat := 4294967296

/-- 32-bit left rotation. -/
def rotl32 (x s : Nat) : Nat := ((x <<< s) % M32) ||| (x >>> (32 - s))

/-- 32-bit complement. -/
def compl32 (x : Nat) : Nat := x ^^^ 0xffffffff

/-- The md5 sine-derived round constants. -/
def md5K : List Nat :=
  [0xd76aa478, 0xe8c7b756, 0x242070db, 0xc1bdceee, 0xf57c0faf, 0x4787c62a, 0xa8304613, 0xfd469501,
   0x698098d8, 0x8b44f7af, 0xffff5bb1, 0x895cd7be, 0x6b901122, 0xfd987193, 0xa679438e, 0x49b40821,
   0xf61e2562, 0xc040b340, 0x265e5a51, 0xe9b6c7aa, 0xd62f105d, 0x02441453, 0xd8a1e681, 0xe7d3fbc8,
   0x21e1cde6, 0xc33707d6, 0xf4d50d87, 0x455a14ed, 0xa9e3e905, 0xfcefa3f8, 0x676f02d9, 0x8d2a4c8a,
   0xfffa3942, 0x8771f681, 0x6d9d6122, 0xfde5380c, 0xa4beea44, 0x4bdecfa9, 0xf6bb4b60, 0xbebfbc70,
   0x289b7ec6, 0xeaa127fa, 0xd4ef3085, 0x04881d05, 0xd9d4d039, 0xe6db99e5, 0x1fa27cf8, 0xc4ac5665,
   0xf4292244, 0x432aff97, 0xab9423a7, 0xfc93a039, 0x655b59c3, 0x8f0ccc92, 0xffeff47d, 0x85845dd1,
   0x6fa87e4f, 0xfe2ce6e0, 0xa3014314, 0x4e0811a1, 0xf7537e82, 0xbd3af235, 0x2ad7d2bb, 0xeb86d391]

/-- The md5 per-round shift amounts. -/
def md5S : List Nat :=
  [7, 12, 17, 22, 7, 12, 17, 22, 7, 12, 17, 22, 7, 12, 17, 22,
   5,  9, 14, 20, 5,  9, 14, 20, 5,  9, 14, 20, 5,  9, 14, 20,
   4, 11, 16, 23, 4, 11, 16, 23, 4, 11, 16, 23, 4, 11, 16, 23,
   6, 10, 15, 21, 6, 10, 15, 21, 6, 10, 15, 21, 6, 10, 15, 21]

/-- md5 padding: `0x80`, zeros to 56 mod 64, 64-bit little-endian bit length. -/
def md5Pad (msg : List Nat) : List Nat :=
  let len := msg.length
  let zeros := (56 + 64 - (len + 1) % 64) % 64
  let bitLen := (len * 8) % (2 ^ 64)
  msg ++ [0x80] ++ List.replicate zeros 0 ++
    ((List.range 8).map fun i => bitLen / 2 ^ (8 * i) % 256)

/-- Word `j` of a 64-byte chunk, little-endian. -/
def leWord (bytes : List Nat) (j : Nat) : Nat :=
  bytes.getD (4 * j) 0 + bytes.getD (4 * j + 1) 0 * 256 +
    bytes.getD (4 * j + 2) 0 * 65536 + bytes.getD (4 * j + 3) 0 * 16777216

/-- One of the 64 md5 rounds on the state `(a, b, c, d)`. -/
def md5Step (w : Nat → Nat) (st : Nat × Nat × Nat × Nat) (i : Nat) : Nat × Nat × Nat × Nat :=
  let a := st.1; let b := st.2.1; let c := st.2.2.1; let d := st.2.2.2
  let fg : Nat × Nat :=
    if i < 16 then ((b &&& c) ||| (compl32 b &&& d), i)
    else if i < 32 then ((d &&& b) ||| (compl32 d &&& c), (5 * i + 1) % 16)
    else if i < 48 then (b ^^^ c ^^^ d, (3 * i + 5) % 16)
    else (c ^^^ (b ||| compl32 d), (7 * i) % 16)
  let tmp := (a + fg.1 + md5K.getD i 0 + w fg.2) % M32
  (d, (b + rotl32 tmp (md5S.getD i 0)) % M32, b, c)

/-- Process one 64-byte chunk. -/
def md5Chunk (st : Nat × Nat × Nat × Nat) (chunk : List Nat) : Nat × Nat × Nat × Nat :=
  let w : Nat → Nat := leWord chunk
  let r := (List.range 64).foldl (md5Step w) st
  ((st.1 + r.1) % M32, (st.2.1 + r.2.1) % M32, (st.2.2.1 + r.2.2.1) % M32,
   (st.2.2.2 + r.2.2.2) % M32)

/-- Split a byte list into 64-byte chunks. -/
def chunks64 : List Nat → List (List Nat)
  | [] => []
  | b :: rest => ((b :: rest).take 64) :: chunks64 (rest.drop 63)
termination_by l => l.length
decreasing_by simp [List.length_drop]; omega

/-- Lower-case hex digit. -/
def hexDigitCh (n : Nat) : Char := "0123456789abcdef".toList.getD n '0'

/-- Little-endian bytes of a 32-bit word. -/
def leBytes4 (x : Nat) : List Nat := [x % 256, x / 256 % 256, x / 65536 % 256, x / 16777216 % 256]

/-- `hashlib.md5(msg).hexdigest()`. -/
def md5Hex (msg : List Nat) : String :=
  let init : Nat × Nat × Nat × Nat := (0x67452301, 0xefcdab89, 0x98badcfe, 0x10325476)
  let fin := (chunks64 (md5Pad msg)).foldl md5Chunk init
  let digest := leBytes4 fin.1 ++ leBytes4 fin.2.1 ++ leBytes4 fin.2.2.1 ++ leBytes4 fin.2.2.2
  String.mk (digest.flatMap fun b => [hexDigitCh (b / 16), hexDigitCh (b % 16)])

/-- `str.encode("utf-8")`, one codepoint at a time. -/
def utf8Char (c : Char) : List Nat :=
  let n := c.toNat
  if n < 0x80 then [n]
  else if n < 0x800 then [0xc0 ||| (n >>> 6), 0x80 ||| (n &&& 0x3f)]
  else if n < 0x10000 then
    [0xe0 ||| (n >>> 12), 0x80 ||| ((n >>> 6) &&& 0x3f), 0x80 ||| (n &&& 0x3f)]
  else
    [0xf0 ||| (n >>> 18), 0x80 ||| ((n >>> 12) &&& 0x3f), 0x80 ||| ((n >>> 6) &&& 0x3f),
     0x80 ||| (n &&& 0x3f)]

/-- `str.encode("utf-8")`. -/
def utf8Encode (s : String) : List Nat := s.toList.flatMap utf8Char

/-- `EXTERNAL_ID_SEED`, the sixteen fixed seed bytes. -/
def EXTERNAL_ID_SEED : List Nat :=
  [0x07, 0xb8, 0xb7, 0xbc, 0xf1, 0xf1, 0xfc, 0x06, 0x3b, 0xc2, 0x1b, 0x43, 0x3c, 0x2c, 0x14, 0x4c]

/-- `external_id(tripos, part, paper, series)`: md5 of the seed followed by
the UTF-8 bytes of the *concatenation* of the four strings. -/
def external_id (tripos part paper series : String) : String :=
  md5Hex (EXTERNAL_ID_SEED ++ utf8Encode (tripos ++ part ++ paper ++ series))

/-! ## The timetable tree -/

/-- How assembly can fail: the `assert events` on empty input, and the
same-calendar-day `assert` in `build_event_xml`. -/
inductive BuildError where
  | emptyInputError
  | dataIntegrityError
deriving DecidableEq, Repr

/-- An `<event>` element: `date` is the calendar date rendered by
`strftime("%Y-%m-%d")`, `startT`/`endT` the times-of-day rendered by
`strftime("%H:%M:%S")`, `etype` the `<type>` element. -/
structure EventXml where
  uniqueid : String
  name : String
  location : String
  lecturer : String
  date : Nat
  startT : Nat
  endT : Nat
  etype : String
deriving DecidableEq, Repr

/-- A `<series>` element. -/
structure SeriesXml where
  uniqueid : String
  name : String
  events : List EventXml
deriving DecidableEq, Repr

/-- A `<module>` element: `<path>` holds `tripos` and `part`, `<name>` holds
the paper. -/
structure ModuleXml where
  tripos : String
  part : String
  name : String
  series : List SeriesXml
deriving DecidableEq, Repr

/-- Build each element in order, propagating the first exception, as a Python
loop over a generator does. -/
def mapE (f : α → Except ε β) : List α → Except ε (List β)
  | [] => .ok []
  | a :: l =>
    match f a with
    | .error e => .error e
    | .ok b =>
      match mapE f l with
      | .error e => .error e
      | .ok bs => .ok (b :: bs)

/-- `build_event_xml`: assert the event starts and ends on the same calendar
date (a raised `AssertionError` discards the element), then emit the event
element. -/
def build_event_xml (e : EngineeringEvent) : Except BuildError EventXml :=
  if e.start.date = e.end_.date then
    .ok { uniqueid := e.uid, name := e.name, location := e.location,
          lecturer := e.staff_name, date := e.start.date,
          startT := e.start.tod, endT := e.end_.tod, etype := e.event_type }
  else .error .dataIntegrityError

/-- `build_series_xml`: the series element with its `external_id` and its
events in order. -/
def build_series_xml (tripos part paper series : String) (events : List EngineeringEvent) :
    Except BuildError SeriesXml :=
  match mapE build_event_xml events with
  | .error err => .error err
  | .ok evs => .ok { uniqueid := external_id tripos part paper series,
                     name := series, events := evs }

/-- `build_paper_xml`: one module; its series are the consecutive runs of
equal `name` within the paper's events. -/
def build_paper_xml (tripos part paper : String) (events : List EngineeringEvent) :
    Except BuildError ModuleXml :=
  match mapE (fun kg => build_series_xml tripos part paper kg.1 kg.2)
      (groupRuns (fun e => e.name) events) with
  | .error err => .error err
  | .ok series => .ok { tripos := tripos, part := part, name := paper, series := series }

/-- `build_part_xml`: one module per consecutive run of equal `paper`. -/
def build_part_xml (tripos part : String) (events : List EngineeringEvent) :
    Except BuildError (List ModuleXml) :=
  mapE (fun kg => build_paper_xml tripos part kg.1 kg.2)
    (groupRuns (fun e => e.paper) events)

/-- `build_timetable_xml`: sort by `event_sort_key`, `assert events` (empty
input aborts), group consecutively by `part` and flatten the per-part module
lists into the `<moduleList>` root. -/
def build_timetable_xml (tripos : String) (events : List EngineeringEvent) :
    Except BuildError (List ModuleXml) :=
  if (sortedBy evLe events).isEmpty then .error .emptyInputError
  else
    match mapE (fun kg => build_part_xml tripos kg.1 kg.2)
        (groupRuns (fun e => e.part) (sortedBy evLe events)) with
    | .error err => .error err
    | .ok moduleLists => .ok moduleLists.flatten

/-! ## Helper lemmas -/

theorem ruleMatches_iff (e : EngineeringEvent) (r : ExclusionRule) :
    ruleMatches e r = true ↔ ∀ kv ∈ r, fieldEq e kv.1 kv.2 = true := by
  induction r with
  | nil => simp [ruleMatches]
  | cons kv rest ih => simp [ruleMatches, ih]

theorem length_orderedInsertB (le : α → α → Bool) (a : α) (l : List α) :
    (orderedInsertB le a l).length = l.length + 1 := by
  induction l with
  | nil => rfl
  | cons b t ih => by_cases h : le a b <;> simp [orderedInsertB, h, ih]

theorem length_sortedBy (le : α → α → Bool) (l : List α) :
    (sortedBy le l).length = l.length := by
  induction l with
  | nil => rfl
  | cons b t ih => simp [sortedBy, length_orderedInsertB, ih]

theorem mapE_error {f : α → Except ε β} : ∀ {l : List α} {e : ε},
    mapE f l = .error e → ∃ a ∈ l, f a = .error e := by
  intro l
  induction l with
  | nil => intro e h; simp [mapE] at h
  | cons a t ih =>
    intro e h
    rw [mapE] at h
    cases ha : f a with
    | error e' => rw [ha] at h; cases h; exact ⟨a, by simp, ha⟩
    | ok b =>
      rw [ha] at h
      cases ht : mapE f t with
      | error e' =>
        rw [ht] at h; cases h
        obtain ⟨x, hx, hfx⟩ := ih ht
        exact ⟨x, by simp [hx], hfx⟩
      | ok bs => rw [ht] at h; cases h

theorem build_event_xml_error {e : EngineeringEvent} {err : BuildError}
    (h : build_event_xml e = .error err) : err = .dataIntegrityError := by
  by_cases hd : e.start.date = e.end_.date
  · simp [build_event_xml, hd] at h
  · simp [build_event_xml, hd] at h
    exact h.symm

theorem build_series_xml_error {t p pa s : String} {evs : List EngineeringEvent}
    {err : BuildError} (h : build_series_xml t p pa s evs = .error err) :
    err = .dataIntegrityError := by
  unfold build_series_xml at h
  cases hm : mapE build_event_xml evs with
  | error e' =>
    rw [hm] at h; cases h
    obtain ⟨a, _, ha⟩ := mapE_error hm
    exact build_event_xml_error ha
  | ok evs' => rw [hm] at h; cases h

theorem build_paper_xml_error {t p pa : String} {evs : List EngineeringEvent}
    {err : BuildError} (h : build_paper_xml t p pa evs = .error err) :
    err = .dataIntegrityError := by
  unfold build_paper_xml at h
  cases hm : mapE (fun kg => build_series_xml t p pa kg.1 kg.2)
      (groupRuns (fun e => e.name) evs) with
  | error e' =>
    rw [hm] at h; cases h
    obtain ⟨a, _, ha⟩ := mapE_error hm
    exact build_series_xml_error ha
  | ok ss => rw [hm] at h; cases h

theorem build_part_xml_error {t p : String} {evs : List EngineeringEvent}
    {err : BuildError} (h : build_part_xml t p evs = .error err) :
    err = .dataIntegrityError := by
  unfold build_part_xml at h
  obtain ⟨a, _, ha⟩ := mapE_error h
  exact build_paper_xml_error ha

/-! ## Claims about lookup, substitution, exclusion -/

/-- C1: for every scope, category and raw value, `lookup` returns the
per-scope mapped value when the scope's entry has a `category` sub-table
containing the raw value (regardless of any global mapping); otherwise, for a
non-global scope it retries with `"__all__"`; and when neither maps the
value it returns the raw value unchanged (it is a total function — never an
error). -/
theorem lookup_scope_global_identity (subs : Substitutions) (sect vt v : String) :
    (∀ m, tableFind subs sect vt v = some m → Substitutor.lookup subs sect vt v = m) ∧
    (tableFind subs sect vt v = none → sect ≠ "__all__" →
      Substitutor.lookup subs sect vt v = Substitutor.lookup subs "__all__" vt v) ∧
    (tableFind subs sect vt v = none → tableFind subs "__all__" vt v = none →
      Substitutor.lookup subs sect vt v = v) := by
  refine ⟨?_, ?_, ?_⟩
  · intro m hm
    rw [Substitutor.lookup, hm]
  · intro hn hne
    rw [Substitutor.lookup, hn]
    simp [hne]
  · intro hn hg
    by_cases h : sect = "__all__"
    · subst h
      rw [Substitutor.lookup, hn]
      simp
    · rw [Substitutor.lookup, hn]
      simp only [h, dite_false]
      rw [Substitutor.lookup, hg]
      simp

/-- A concrete substitution table: scope `"1"` maps paper `CW`, the global
scope maps part `1` and (conflictingly) paper `CW`. -/
def subsEx : Substitutions :=
  [("__all__", [("parts", [("1", "IA")]), ("papers", [("CW", "GlobalCW")])]),
   ("1", [("papers", [("CW", "Coursework")])])]

/-- Witness for C1: the per-scope mapping wins over the conflicting global
one, a scope miss falls back to the global scope, and a total miss is the
identity. -/
theorem lookup_scope_global_identity_witness :
    Substitutor.lookup subsEx "1" "papers" "CW" = "Coursework" ∧
    Substitutor.lookup subsEx "2" "parts" "1" = Substitutor.lookup subsEx "__all__" "parts" "1" ∧
    Substitutor.lookup subsEx "1" "event_types" "C" = "C" :=
  ⟨(lookup_scope_global_identity subsEx "1" "papers" "CW").1 "Coursework" (by decide),
   (lookup_scope_global_identity subsEx "2" "parts" "1").2.1 (by decide) (by decide),
   (lookup_scope_global_identity subsEx "1" "event_types" "C").2.2 (by decide) (by decide)⟩

/-- C6: `with_substitutions` re-derives the event with `part`, `paper` and
`event_type` each looked up with the *original* part as scope, and passes
`name`, `staff_name`, `location`, `start`, `end` and `uid` through
unchanged. -/
theorem with_substitutions_fields (subs : Substitutions) (e : EngineeringEvent) :
    (e.with_substitutions subs).part = Substitutor.lookup subs e.part "parts" e.part ∧
    (e.with_substitutions subs).paper = Substitutor.lookup subs e.part "papers" e.paper ∧
    (e.with_substitutions subs).event_type
      = Substitutor.lookup subs e.part "event_types" e.event_type ∧
    (e.with_substitutions subs).name = e.name ∧
    (e.with_substitutions subs).staff_name = e.staff_name ∧
    (e.with_substitutions subs).location = e.location ∧
    (e.with_substitutions subs).start = e.start ∧
    (e.with_substitutions subs).end_ = e.end_ ∧
    (e.with_substitutions subs).uid = e.uid :=
  ⟨rfl, rfl, rfl, rfl, rfl, rfl, rfl, rfl, rfl⟩

/-- C5: `is_excluded` is true iff some rule has all its entries agreeing with
the event; in particular an empty rule matches every event, so a rule set
containing it excludes everything. -/
theorem is_excluded_exists_rule (rules : List ExclusionRule) (e : EngineeringEvent) :
    (Excludor.is_excluded rules e = true ↔
      ∃ r ∈ rules, ∀ kv ∈ r, fieldEq e kv.1 kv.2 = true) ∧
    (([] : ExclusionRule) ∈ rules → Excludor.is_excluded rules e = true) := by
  have main : Excludor.is_excluded rules e = true ↔
      ∃ r ∈ rules, ∀ kv ∈ r, fieldEq e kv.1 kv.2 = true := by
    induction rules with
    | nil => simp [Excludor.is_excluded]
    | cons r rest ih =>
      by_cases h : ruleMatches e r = true
      · simp only [Excludor.is_excluded, h, if_true, true_iff]
        exact ⟨r, by simp, (ruleMatches_iff e r).mp h⟩
      · have hstep : Excludor.is_excluded (r :: rest) e = Excludor.is_excluded rest e := by
          simp [Excludor.is_excluded, h]
        rw [hstep, ih]
        constructor
        · rintro ⟨x, hx, hall⟩
          exact ⟨x, by simp [hx], hall⟩
        · rintro ⟨x, hx, hall⟩
          rcases List.mem_cons.mp hx with rfl | hx2
          · exact absurd ((ruleMatches_iff e x).mpr hall) h
          · exact ⟨x, hx2, hall⟩
  exact ⟨main, fun hmem => main.mpr ⟨[], hmem, by simp⟩⟩

/-- A concrete event for the exclusion witnesses. -/
def evEx : EngineeringEvent :=
  { part := "IA", paper := "Coursework", name := "Example Lecture",
    event_type := "class", staff_name := "Dr Smith", location := "LR1",
    start := ⟨19738, 32400⟩, end_ := ⟨19738, 36000⟩, uid := "u1" }

/-- Witness for C5: a matching rule excludes `evEx`, a non-matching rule set
does not, and a rule set containing the empty rule excludes it. -/
theorem is_excluded_exists_rule_witness :
    Excludor.is_excluded [[("paper", "Coursework"), ("event_type", "class")]] evEx = true ∧
    Excludor.is_excluded [[("paper", "Tripos")]] evEx = false ∧
    Excludor.is_excluded [[("paper", "Tripos")], []] evEx = true := by
  refine ⟨?_, ?_, ?_⟩
  · exact (is_excluded_exists_rule [[("paper", "Coursework"), ("event_type", "class")]] evEx).1.mpr
      ⟨[("paper", "Coursework"), ("event_type", "class")], by simp, by decide⟩
  · decide
  · exact (is_excluded_exists_rule [[("paper", "Tripos")], []] evEx).2 (by simp)

/-- C9: `is_excluded` is monotonic in the rule set — appending a further rule
can only add exclusions, never remove one. -/
theorem is_excluded_monotone (e : EngineeringEvent) (rules : List ExclusionRule)
    (r : ExclusionRule) (h : Excludor.is_excluded rules e = true) :
    Excludor.is_excluded (rules ++ [r]) e = true := by
  induction rules with
  | nil => simp [Excludor.is_excluded] at h
  | cons r0 rest ih =>
    by_cases h0 : ruleMatches e r0 = true
    · simp [Excludor.is_excluded, h0]
    · simp only [List.cons_append]
      simp only [Excludor.is_excluded, h0, if_false] at h ⊢
      exact ih h

/-- Witness for C9: an excluded event stays excluded after a rule is
appended. -/
theorem is_excluded_monotone_witness :
    Excludor.is_excluded [[("paper", "Coursework")]] evEx = true ∧
    Excludor.is_excluded ([[("paper", "Coursework")]] ++ [[("part", "II")]]) evEx = true :=
  ⟨by decide, is_excluded_monotone evEx [[("paper", "Coursework")]] [("part", "II")] (by decide)⟩

/-! ## Claims about assembly and identifiers -/

/-- C7: `build_event_xml` asserts that start and end share a calendar date:
on different dates it fails with the fatal data-integrity error and emits
nothing; under the same-day precondition the failure branch is unreachable
and the element is emitted. -/
theorem build_event_xml_same_date (e : EngineeringEvent) :
    (e.start.date ≠ e.end_.date → build_event_xml e = .error .dataIntegrityError) ∧
    (e.start.date = e.end_.date →
      build_event_xml e =
        .ok { uniqueid := e.uid, name := e.name, location := e.location,
              lecturer := e.staff_name, date := e.start.date, startT := e.start.tod,
              endT := e.end_.tod, etype := e.event_type }) := by
  constructor <;> intro h <;> simp [build_event_xml, h]

/-- Witness for C7: a cross-midnight event aborts, a same-day event is
emitted. -/
theorem build_event_xml_same_date_witness :
    build_event_xml { evEx with end_ := ⟨19739, 600⟩ } = .error .dataIntegrityError ∧
    build_event_xml evEx =
      .ok { uniqueid := "u1", name := "Example Lecture",
            location := "LR1", lecturer := "Dr Smith", date := 19738, startT := 32400,
            endT := 36000, etype := "class" } :=
  ⟨(build_event_xml_same_date { evEx with end_ := ⟨19739, 600⟩ }).1 (by decide),
   (build_event_xml_same_date evEx).2 (by decide)⟩

/-- C8: `build_timetable_xml` on an empty collection fails with the
empty-input error, and on any non-empty collection that error cannot
occur. -/
theorem build_timetable_xml_empty_input (tripos : String) :
    build_timetable_xml tripos [] = .error .emptyInputError ∧
    ∀ l : List EngineeringEvent, l ≠ [] →
      build_timetable_xml tripos l ≠ .error .emptyInputError := by
  constructor
  · rfl
  · intro l hne
    unfold build_timetable_xml
    have hlen : (sortedBy evLe l).length = l.length := length_sortedBy evLe l
    have hemp : (sortedBy evLe l).isEmpty = false := by
      rcases l with _ | ⟨a, t⟩
      · exact absurd rfl hne
      · rcases hs : sortedBy evLe (a :: t) with _ | ⟨b, u⟩
        · rw [hs] at hlen; simp at hlen
        · simp [List.isEmpty]
    rw [hemp]
    simp only [Bool.false_eq_true, if_false]
    cases hm : mapE (fun kg => build_part_xml tripos kg.1 kg.2)
        (groupRuns (fun e => e.part) (sortedBy evLe l)) with
    | error err =>
      obtain ⟨a, _, ha⟩ := mapE_error hm
      have := build_part_xml_error ha
      subst this
      intro hcontra
      exact BuildError.noConfusion (Except.error.inj hcontra)
    | ok ms => intro hcontra; cases hcontra

/-- Witness for C8: one concrete event does not trigger the empty-input
error. -/
theorem build_timetable_xml_empty_input_witness :
    build_timetable_xml "engineering" [evEx] ≠ .error .emptyInputError :=
  (build_timetable_xml_empty_input "engineering").2 [evEx] (by simp)

/-- C4 (amended): `external_id` is a pure function of the *concatenation*
`tripos ++ part ++ paper ++ series` — equal 4-tuples therefore give equal
identifiers, but so does any other 4-tuple with the same concatenation. -/
theorem external_id_concat (t p pa s t2 p2 pa2 s2 : String)
    (h : t ++ p ++ pa ++ s = t2 ++ p2 ++ pa2 ++ s2) :
    external_id t p pa s = external_id t2 p2 pa2 s2 := by
  unfold external_id
  rw [h]

/-- Witness for C4 (amended): equal concatenations, equal identifiers. -/
theorem external_id_concat_witness :
    ("ab" ++ "c" ++ "x" ++ "y" = "a" ++ "bc" ++ "x" ++ "y") ∧
    external_id "ab" "c" "x" "y" = external_id "a" "bc" "x" "y" :=
  ⟨by decide, external_id_concat "ab" "c" "x" "y" "a" "bc" "x" "y" (by decide)⟩

/-- Counterexample to C4 as stated: two *distinct* 4-tuples whose
concatenations coincide receive the same identifier, so changing one input
(moving a character between `tripos` and `part`) does not change the id. -/
theorem external_id_distinct_tuples_collide :
    (("ab", "c", "x", "y") ≠ (("a", "bc", "x", "y") : String × String × String × String)) ∧
    external_id "ab" "c" "x" "y" = external_id "a" "bc" "x" "y" := by
  constructor
  · decide
  · unfold external_id
    have h : ("ab" ++ "c" ++ "x" ++ "y" : String) = "a" ++ "bc" ++ "x" ++ "y" := by decide
    rw [h]

/-- C10: a record whose summary matches the grammar and which has start and
end timestamps but no `UID` escapes the `EventParseException` taxonomy: the
parser's missing-field guards cover only SUMMARY, DTSTART and DTEND, and the
unguarded `ical_event["UID"]` subscript raises a `KeyError` instead. -/
theorem from_ical_event_missing_uid (ev : ICalEvent) (s : String)
    (gs : List (List Char)) (t1 t2 : PyDateTime)
    (hs : ev.summary = some s) (hm : matchSeq ICAL_SUMMARY_PATTERN s.toList = some gs)
    (h1 : ev.dtstart = some t1) (h2 : ev.dtend = some t2) (hu : ev.uid = none) :
    EngineeringEvent.from_ical_event ev = .error (.keyError "UID") ∧
    ∀ k, EngineeringEvent.from_ical_event ev ≠ .error (.eventParse k) := by
  have hmain : EngineeringEvent.from_ical_event ev = .error (.keyError "UID") := by
    have hm2 : matchSeq ICAL_SUMMARY_PATTERN s.data = some gs := hm
    simp [EngineeringEvent.from_ical_event, hs, hm2, h1, h2, hu]
  exact ⟨hmain, fun k hcontra => by
    rw [hmain] at hcontra
    exact FromIcalError.noConfusion (Except.error.inj hcontra)⟩

/-- A well-formed record lacking only its UID. -/
def icalNoUid : ICalEvent :=
  { summary := some "1CW/Example Lecture[3]L Dr Smith (LR1)",
    dtstart := some ⟨19738, 32400⟩, dtend := some ⟨19738, 36000⟩, uid := none }

/-- Witness for C10 at `icalNoUid`. -/
theorem from_ical_event_missing_uid_witness :
    EngineeringEvent.from_ical_event icalNoUid = .error (.keyError "UID") ∧
    ∀ k, EngineeringEvent.from_ical_event icalNoUid ≠ .error (.eventParse k) :=
  from_ical_event_missing_uid icalNoUid "1CW/Example Lecture[3]L Dr Smith (LR1)"
    [['1'], ['C', 'W'], "Example Lecture".toList, ['3'], ['L'],
     "Dr Smith ".toList, "LR1".toList] ⟨19738, 32400⟩ ⟨19738, 36000⟩
    rfl (by decide) rfl rfl rfl

/-! ## Shape of accepted summaries -/

theorem findSome_mem {f : α → Option β} : ∀ {l : List α} {b : β},
    l.findSome? f = some b → ∃ a ∈ l, f a = some b := by
  intro l
  induction l with
  | nil => intro b h; simp [List.findSome?] at h
  | cons a t ih =>
    intro b h
    rw [List.findSome?] at h
    cases ha : f a with
    | some b' => rw [ha] at h; cases h; exact ⟨a, by simp, ha⟩
    | none =>
      rw [ha] at h
      obtain ⟨x, hx, hfx⟩ := ih h
      exact ⟨x, by simp [hx], hfx⟩

theorem greedyLens_mem : ∀ {k lo i : Nat}, i ∈ greedyLens k lo → lo ≤ i ∧ i ≤ k := by
  intro k
  induction k with
  | zero =>
    intro lo i h
    rw [greedyLens] at h
    by_cases hlo : lo = 0
    · simp [hlo] at h; omega
    · simp [hlo] at h
  | succ k ih =>
    intro lo i h
    rw [greedyLens] at h
    by_cases hlt : k + 1 < lo
    · simp [hlt] at h
    · simp only [hlt, if_false, List.mem_cons] at h
      rcases h with rfl | h
      · omega
      · have := ih h; omega

theorem length_takeWhile_le_self {p : Char → Bool} (s : List Char) :
    (s.takeWhile p).length ≤ s.length := by
  induction s with
  | nil => simp
  | cons a t ih =>
    by_cases hp : p a
    · rw [List.takeWhile_cons_of_pos hp]
      simpa using ih
    · rw [List.takeWhile_cons_of_neg hp]
      simp

theorem take_takeWhile_all {p : Char → Bool} : ∀ (s : List Char) (i : Nat),
    i ≤ (s.takeWhile p).length → ∀ c ∈ s.take i, p c := by
  intro s
  induction s with
  | nil => intro i _ c hc; simp at hc
  | cons a t ih =>
    intro i hi c hc
    by_cases hp : p a
    · rw [List.takeWhile_cons_of_pos hp] at hi
      cases i with
      | zero => simp at hc
      | succ j =>
        rw [List.take_succ_cons] at hc
        rcases List.mem_cons.mp hc with rfl | hc'
        · exact hp
        · exact ih j (by simpa using hi) c hc'
    · rw [List.takeWhile_cons_of_neg hp] at hi
      have : i = 0 := by simpa using hi
      subst this
      simp at hc

/-- What `matchSeq` guarantees about the captured groups: one group per
non-literal element, single-character classes capture exactly one character
of their class, `+` groups capture a non-empty run of their class, `*`
groups a possibly empty one. -/
def capsOK : List RElem → List (List Char) → Prop
  | [], gs => gs = []
  | .lit _ :: rest, gs => capsOK rest gs
  | .one p :: rest, gs =>
    ∃ g gs2, gs = g :: gs2 ∧ g.length = 1 ∧ (∀ c ∈ g, p c) ∧ capsOK rest gs2
  | .many1 p :: rest, gs =>
    ∃ g gs2, gs = g :: gs2 ∧ 1 ≤ g.length ∧ (∀ c ∈ g, p c) ∧ capsOK rest gs2
  | .many0 p :: rest, gs =>
    ∃ g gs2, gs = g :: gs2 ∧ (∀ c ∈ g, p c) ∧ capsOK rest gs2

theorem matchSeq_capsOK : ∀ (pat : List RElem) (s : List Char) (gs : List (List Char)),
    matchSeq pat s = some gs → capsOK pat gs := by
  intro pat
  induction pat with
  | nil =>
    intro s gs h
    rw [matchSeq] at h
    by_cases hs : s = [] ∨ s = ['\n'] <;> simp [hs] at h
    unfold capsOK
    exact h
  | cons hd rest ih =>
    intro s gs h
    cases hd with
    | lit c =>
      cases s with
      | nil => rw [matchSeq] at h; cases h
      | cons c2 s2 =>
        rw [matchSeq] at h
        by_cases hc : c2 = c
        · rw [if_pos hc] at h
          exact ih s2 gs h
        · rw [if_neg hc] at h; cases h
    | one p =>
      cases s with
      | nil => rw [matchSeq] at h; cases h
      | cons c s2 =>
        rw [matchSeq] at h
        by_cases hp : p c
        · rw [if_pos hp] at h
          obtain ⟨gs2, hgs2, rfl⟩ := Option.map_eq_some'.mp h
          exact ⟨[c], gs2, rfl, rfl, by simpa using hp, ih s2 gs2 hgs2⟩
        · rw [if_neg (by simpa using hp)] at h; cases h
    | many1 p =>
      rw [matchSeq] at h
      obtain ⟨i, hi, hFi⟩ := findSome_mem h
      obtain ⟨hlo, hhi⟩ := greedyLens_mem hi
      obtain ⟨gs', hgs', rfl⟩ := Option.map_eq_some'.mp hFi
      have hilen : i ≤ s.length := le_trans hhi (length_takeWhile_le_self s)
      refine ⟨s.take i, gs', rfl, ?_, take_takeWhile_all s i hhi, ih _ gs' hgs'⟩
      simp [List.length_take]
      omega
    | many0 p =>
      rw [matchSeq] at h
      obtain ⟨i, hi, hFi⟩ := findSome_mem h
      obtain ⟨hlo, hhi⟩ := greedyLens_mem hi
      obtain ⟨gs', hgs', rfl⟩ := Option.map_eq_some'.mp hFi
      exact ⟨s.take i, gs', rfl, take_takeWhile_all s i hhi, ih _ gs' hgs'⟩

/-- C2 (amended): the type-code group of `ICAL_SUMMARY_PATTERN` is `[A-Z+]`
— exactly *one* uppercase letter or `+` — so every event the parser accepts
has a single-character `event_type` drawn from that class (and a summary
whose type-code runs to two or more such characters is rejected with the
malformed-summary error, see the counterexample). -/
theorem from_ical_event_type_single_char (ev : ICalEvent) (e : EngineeringEvent)
    (h : EngineeringEvent.from_ical_event ev = .ok e) :
    e.event_type.length = 1 ∧ ∀ c ∈ e.event_type.toList, isUpperOrPlus c := by
  obtain ⟨osum, odt1, odt2, ouid⟩ := ev
  cases osum with
  | none => simp [EngineeringEvent.from_ical_event] at h
  | some s =>
    cases hm : matchSeq ICAL_SUMMARY_PATTERN s.data with
    | none => simp [EngineeringEvent.from_ical_event, hm] at h
    | some gs =>
      cases odt1 with
      | none => simp [EngineeringEvent.from_ical_event, hm] at h
      | some t1 =>
        cases odt2 with
        | none => simp [EngineeringEvent.from_ical_event, hm] at h
        | some t2 =>
          cases ouid with
          | none => simp [EngineeringEvent.from_ical_event, hm] at h
          | some u =>
            have hok : EngineeringEvent.from_ical_event ⟨some s, some t1, some t2, some u⟩
                = .ok { part := String.mk (gs.getD 0 []), paper := String.mk (gs.getD 1 []),
                        name := String.mk (gs.getD 2 []), event_type := String.mk (gs.getD 4 []),
                        staff_name := String.mk (gs.getD 5 []), location := String.mk (gs.getD 6 []),
                        start := t1, end_ := t2, uid := u } := by
              simp [EngineeringEvent.from_ical_event, hm]
            rw [hok] at h
            have he : e = { part := String.mk (gs.getD 0 []), paper := String.mk (gs.getD 1 []),
                            name := String.mk (gs.getD 2 []), event_type := String.mk (gs.getD 4 []),
                            staff_name := String.mk (gs.getD 5 []), location := String.mk (gs.getD 6 []),
                            start := t1, end_ := t2, uid := u } := (Except.ok.inj h).symm
            subst he
            have hcaps := matchSeq_capsOK ICAL_SUMMARY_PATTERN s.data gs hm
            unfold ICAL_SUMMARY_PATTERN at hcaps
            unfold capsOK at hcaps
            obtain ⟨g1, r1, rfl, hg1len, hg1, hcaps⟩ := hcaps
            obtain ⟨g2, r2, rfl, hg2len, hg2, hcaps⟩ := hcaps
            obtain ⟨g3, r3, rfl, hg3len, hg3, hcaps⟩ := hcaps
            obtain ⟨g4, r4, rfl, hg4len, hg4, hcaps⟩ := hcaps
            obtain ⟨g5, r5, rfl, hg5len, hg5, hcaps⟩ := hcaps
            obtain ⟨g6, r6, rfl, hg6, hcaps⟩ := hcaps
            obtain ⟨g7, r7, rfl, hg7, hcaps⟩ := hcaps
            subst hcaps
            constructor
            · simpa [String.length] using hg5len
            · intro c hc
              exact hg5 c (by simpa [String.toList] using hc)

/-- Counterexample to C2 as stated: the type-code class `[A-Z+]` is not
`one or more` characters — the summary `1CW/Example[3]AB Dr Smith (LR1)`,
whose type-code runs to the two characters `AB`, is rejected with the
malformed-summary parse error instead of parsing with eventType `AB`. -/
theorem multichar_type_code_rejected :
    EngineeringEvent.from_ical_event
      { summary := some "1CW/Example[3]AB Dr Smith (LR1)",
        dtstart := some ⟨19738, 32400⟩, dtend := some ⟨19738, 36000⟩,
        uid := some "u1" }
      = .error (.eventParse .malformedSummary) := by rfl

/-- A fully well-formed record whose summary's type-code is the single
letter `L`. -/
def icalOk : ICalEvent :=
  { summary := some "1CW/Example Lecture[3]L Dr Smith (LR1)",
    dtstart := some ⟨19738, 32400⟩, dtend := some ⟨19738, 36000⟩,
    uid := some "u1" }

/-- The event `icalOk` parses to (note the trailing space the greedy staff
group keeps). -/
def evParsed : EngineeringEvent :=
  { part := "1", paper := "CW", name := "Example Lecture", event_type := "L",
    staff_name := "Dr Smith ", location := "LR1",
    start := ⟨19738, 32400⟩, end_ := ⟨19738, 36000⟩, uid := "u1" }

/-- Witness for C2 (amended): `icalOk` is accepted and its eventType is the
single class character `L`. -/
theorem from_ical_event_type_single_char_witness :
    EngineeringEvent.from_ical_event icalOk = .ok evParsed ∧
    evParsed.event_type.length = 1 ∧ ∀ c ∈ evParsed.event_type.toList, isUpperOrPlus c :=
  ⟨by rfl, from_ical_event_type_single_char icalOk evParsed (by rfl)⟩

/-! ## Order facts about the sort comparison -/

theorem char_toNat_inj {a b : Char} (h : a.toNat = b.toNat) : a = b :=
  Char.eq_of_val_eq (UInt32.toNat.inj h)

theorem string_data_inj {a b : String} (h : a.data = b.data) : a = b := by
  cases a; cases b; exact congrArg String.mk h

theorem charsLt_trans : ∀ {a b c : List Char},
    charsLt a b = true → charsLt b c = true → charsLt a c = true := by
  intro a
  induction a with
  | nil =>
    intro b c hab hbc
    cases b with
    | nil => cases hab
    | cons y bs =>
      cases c with
      | nil => cases hbc
      | cons z cs => rfl
  | cons x as ih =>
    intro b c hab hbc
    cases b with
    | nil => cases hab
    | cons y bs =>
      cases c with
      | nil => cases hbc
      | cons z cs =>
        rw [charsLt] at hab hbc ⊢
        by_cases h1 : x.toNat < y.toNat
        · by_cases h2 : y.toNat < z.toNat
          · rw [if_pos (by omega)]
          · rw [if_neg h2] at hbc
            by_cases h3 : z.toNat < y.toNat
            · rw [if_pos h3] at hbc; cases hbc
            · have : y.toNat = z.toNat := by omega
              rw [if_pos (by omega)]
        · rw [if_neg h1] at hab
          by_cases h1' : y.toNat < x.toNat
          · rw [if_pos h1'] at hab; cases hab
          · rw [if_neg h1'] at hab
            have hxy : x.toNat = y.toNat := by omega
            by_cases h2 : y.toNat < z.toNat
            · rw [if_pos (by omega)]
            · rw [if_neg h2] at hbc
              by_cases h3 : z.toNat < y.toNat
              · rw [if_pos h3] at hbc; cases hbc
              · rw [if_neg h3] at hbc
                rw [if_neg (by omega), if_neg (by omega)]
                exact ih hab hbc

theorem charsLt_asymm : ∀ {a b : List Char},
    charsLt a b = true → charsLt b a = true → False := by
  intro a
  induction a with
  | nil =>
    intro b hab hba
    cases b with
    | nil => cases hab
    | cons y bs => cases hba
  | cons x as ih =>
    intro b hab hba
    cases b with
    | nil => cases hab
    | cons y bs =>
      rw [charsLt] at hab hba
      by_cases h1 : x.toNat < y.toNat
      · rw [if_neg (by omega), if_pos h1] at hba
        cases hba
      · rw [if_neg h1] at hab
        by_cases h2 : y.toNat < x.toNat
        · rw [if_pos h2] at hab; cases hab
        · rw [if_neg h2] at hab
          rw [if_neg (by omega), if_neg (by omega)] at hba
          exact ih hab hba

theorem charsLt_conn : ∀ {a b : List Char},
    charsLt a b = false → charsLt b a = false → a = b := by
  intro a
  induction a with
  | nil =>
    intro b hab _
    cases b with
    | nil => rfl
    | cons y bs => cases hab
  | cons x as ih =>
    intro b hab hba
    cases b with
    | nil => cases hba
    | cons y bs =>
      rw [charsLt] at hab hba
      by_cases h1 : x.toNat < y.toNat
      · rw [if_pos h1] at hab; cases hab
      · by_cases h2 : y.toNat < x.toNat
        · rw [if_pos h2] at hba; cases hba
        · rw [if_neg h1, if_neg h2] at hab
          rw [if_neg h2, if_neg h1] at hba
          have hx : x = y := char_toNat_inj (by omega)
          rw [hx, ih hab hba]

theorem strLt_trans {a b c : String} (h1 : strLt a b = true) (h2 : strLt b c = true) :
    strLt a c = true := charsLt_trans h1 h2

theorem strLt_asymm {a b : String} (h1 : strLt a b = true) (h2 : strLt b a = true) : False :=
  charsLt_asymm h1 h2

theorem strLt_conn {a b : String} (h1 : strLt a b = false) (h2 : strLt b a = false) : a = b :=
  string_data_inj (charsLt_conn h1 h2)

theorem dtLe_trans {a b c : PyDateTime} (h1 : dtLe a b = true) (h2 : dtLe b c = true) :
    dtLe a c = true := by
  simp only [dtLe, Bool.or_eq_true, Bool.and_eq_true, decide_eq_true_eq] at *
  omega

theorem dtLe_total (a b : PyDateTime) : dtLe a b = true ∨ dtLe b a = true := by
  simp only [dtLe, Bool.or_eq_true, Bool.and_eq_true, decide_eq_true_eq]
  omega

theorem dtLe_antisymm {a b : PyDateTime} (h1 : dtLe a b = true) (h2 : dtLe b a = true) :
    a = b := by
  simp only [dtLe, Bool.or_eq_true, Bool.and_eq_true, decide_eq_true_eq] at h1 h2
  cases a; cases b
  simp only [PyDateTime.mk.injEq]
  simp only at h1 h2
  omega

theorem lexStep_trans {lt : α → α → Bool} [DecidableEq α] {le2 : β → β → Bool}
    (hlt : ∀ {x y z : α}, lt x y = true → lt y z = true → lt x z = true)
    (hle : ∀ {x y z : β}, le2 x y = true → le2 y z = true → le2 x z = true)
    {x y z : α × β} (hxy : lexStep lt le2 x y = true) (hyz : lexStep lt le2 y z = true) :
    lexStep lt le2 x z = true := by
  simp only [lexStep, Bool.or_eq_true, Bool.and_eq_true, decide_eq_true_eq] at *
  rcases hxy with h1 | ⟨he1, h2⟩
  · rcases hyz with g1 | ⟨ge1, g2⟩
    · exact Or.inl (hlt h1 g1)
    · exact Or.inl (ge1 ▸ h1)
  · rcases hyz with g1 | ⟨ge1, g2⟩
    · exact Or.inl (he1 ▸ g1)
    · exact Or.inr ⟨he1.trans ge1, hle h2 g2⟩

theorem lexStep_total {lt : α → α → Bool} [DecidableEq α] {le2 : β → β → Bool}
    (hconn : ∀ {x y : α}, lt x y = false → lt y x = false → x = y)
    (htot : ∀ x y : β, le2 x y = true ∨ le2 y x = true)
    (x y : α × β) : lexStep lt le2 x y = true ∨ lexStep lt le2 y x = true := by
  cases h1 : lt x.1 y.1 with
  | true => exact Or.inl (by simp [lexStep, h1])
  | false =>
    cases h2 : lt y.1 x.1 with
    | true => exact Or.inr (by simp [lexStep, h2])
    | false =>
      have he := hconn h1 h2
      rcases htot x.2 y.2 with h | h
      · exact Or.inl (by simp [lexStep, he, h])
      · exact Or.inr (by simp [lexStep, he.symm, h])

theorem lexStep_antisymm {lt : α → α → Bool} [DecidableEq α] {le2 : β → β → Bool}
    (hasym : ∀ {x y : α}, lt x y = true → lt y x = true → False)
    (hanti : ∀ {x y : β}, le2 x y = true → le2 y x = true → x = y)
    {x y : α × β} (hxy : lexStep lt le2 x y = true) (hyx : lexStep lt le2 y x = true) :
    x = y := by
  simp only [lexStep, Bool.or_eq_true, Bool.and_eq_true, decide_eq_true_eq] at hxy hyx
  rcases hxy with h1 | ⟨he1, h2⟩
  · rcases hyx with g1 | ⟨ge1, g2⟩
    · exact absurd (hasym h1 g1) not_false
    · exact absurd (hasym (ge1 ▸ h1) (ge1 ▸ h1)) not_false
  · rcases hyx with g1 | ⟨ge1, g2⟩
    · exact absurd (hasym (he1 ▸ g1) (he1 ▸ g1)) not_false
    · exact Prod.ext he1 (hanti h2 g2)

theorem keyLe_trans {a b c : String × String × String × PyDateTime}
    (h1 : keyLe a b = true) (h2 : keyLe b c = true) : keyLe a c = true := by
  unfold keyLe at *
  refine lexStep_trans ?_ ?_ h1 h2
  · exact fun hx hy => strLt_trans hx hy
  · intro x y z hx hy
    refine lexStep_trans ?_ ?_ hx hy
    · exact fun hx2 hy2 => strLt_trans hx2 hy2
    · intro x2 y2 z2 hx2 hy2
      refine lexStep_trans ?_ ?_ hx2 hy2
      · exact fun hx3 hy3 => strLt_trans hx3 hy3
      · exact fun hx3 hy3 => dtLe_trans hx3 hy3

theorem keyLe_total (a b : String × String × String × PyDateTime) :
    keyLe a b = true ∨ keyLe b a = true := by
  unfold keyLe
  refine lexStep_total ?_ ?_ a b
  · exact fun hx hy => strLt_conn hx hy
  · intro x y
    refine lexStep_total ?_ ?_ x y
    · exact fun hx2 hy2 => strLt_conn hx2 hy2
    · intro x2 y2
      refine lexStep_total ?_ ?_ x2 y2
      · exact fun hx3 hy3 => strLt_conn hx3 hy3
      · exact dtLe_total

theorem keyLe_antisymm {a b : String × String × String × PyDateTime}
    (h1 : keyLe a b = true) (h2 : keyLe b a = true) : a = b := by
  unfold keyLe at *
  refine lexStep_antisymm ?_ ?_ h1 h2
  · exact fun hx hy => strLt_asymm hx hy
  · intro x y hx hy
    refine lexStep_antisymm ?_ ?_ hx hy
    · exact fun hx2 hy2 => strLt_asymm hx2 hy2
    · intro x2 y2 hx2 hy2
      refine lexStep_antisymm ?_ ?_ hx2 hy2
      · exact fun hx3 hy3 => strLt_asymm hx3 hy3
      · exact fun hx3 hy3 => dtLe_antisymm hx3 hy3

theorem evLe_trans {a b c : EngineeringEvent}
    (h1 : evLe a b = true) (h2 : evLe b c = true) : evLe a c = true :=
  keyLe_trans h1 h2

theorem evLe_total (a b : EngineeringEvent) : evLe a b = true ∨ evLe b a = true :=
  keyLe_total _ _

theorem evLe_antisymm_key {a b : EngineeringEvent}
    (h1 : evLe a b = true) (h2 : evLe b a = true) :
    event_sort_key a = event_sort_key b :=
  keyLe_antisymm h1 h2

theorem evLe_part_le {a b : EngineeringEvent} (h : evLe a b = true) :
    strLt a.part b.part = true ∨ a.part = b.part := by
  unfold evLe keyLe lexStep event_sort_key at h
  simp only [Bool.or_eq_true, Bool.and_eq_true, decide_eq_true_eq] at h
  rcases h with h | ⟨he, _⟩
  · exact Or.inl h
  · exact Or.inr he

theorem evLe_paper_le {a b : EngineeringEvent} (h : evLe a b = true)
    (hp : a.part = b.part) : strLt a.paper b.paper = true ∨ a.paper = b.paper := by
  unfold evLe keyLe lexStep event_sort_key at h
  simp only [Bool.or_eq_true, Bool.and_eq_true, decide_eq_true_eq] at h
  rcases h with h | ⟨_, h2 | ⟨he2, _⟩⟩
  · exact ((strLt_asymm (hp ▸ h) (hp ▸ h)).elim)
  · exact Or.inl h2
  · exact Or.inr he2

theorem evLe_start_le {a b : EngineeringEvent} (h : evLe a b = true)
    (hp : a.part = b.part) (hpa : a.paper = b.paper) (hn : a.name = b.name) :
    dtLe a.start b.start = true := by
  unfold evLe keyLe lexStep event_sort_key at h
  simp only [Bool.or_eq_true, Bool.and_eq_true, decide_eq_true_eq] at h
  rcases h with h | ⟨_, h2 | ⟨_, h3 | ⟨_, h4⟩⟩⟩
  · exact ((strLt_asymm (hp ▸ h) (hp ▸ h)).elim)
  · exact ((strLt_asymm (hpa ▸ h2) (hpa ▸ h2)).elim)
  · exact ((strLt_asymm (hn ▸ h3) (hn ▸ h3)).elim)
  · exact h4

/-! ## Facts about the stable sort -/

theorem perm_orderedInsertB (le : α → α → Bool) (a : α) :
    ∀ l : List α, (orderedInsertB le a l).Perm (a :: l) := by
  intro l
  induction l with
  | nil => exact List.Perm.refl _
  | cons b t ih =>
    by_cases h : le a b = true
    · simp only [orderedInsertB, h, if_true]
      exact List.Perm.refl _
    · simp only [orderedInsertB, h, if_false]
      exact (ih.cons b).trans (List.Perm.swap a b t)

theorem perm_sortedBy (le : α → α → Bool) : ∀ l : List α, (sortedBy le l).Perm l := by
  intro l
  induction l with
  | nil => exact List.Perm.refl _
  | cons b t ih =>
    exact (perm_orderedInsertB le b (sortedBy le t)).trans (ih.cons b)

theorem mem_orderedInsertB {le : α → α → Bool} {a x : α} {l : List α} :
    x ∈ orderedInsertB le a l ↔ x = a ∨ x ∈ l := by
  rw [(perm_orderedInsertB le a l).mem_iff]
  simp

theorem pairwise_orderedInsertB {le : α → α → Bool}
    (htot : ∀ x y, le x y = true ∨ le y x = true)
    (htrans : ∀ {x y z}, le x y = true → le y z = true → le x z = true)
    (a : α) : ∀ {l : List α}, l.Pairwise (fun x y => le x y = true) →
      (orderedInsertB le a l).Pairwise (fun x y => le x y = true) := by
  intro l
  induction l with
  | nil => intro _; simp [orderedInsertB]
  | cons b t ih =>
    intro hl
    obtain ⟨hb, ht⟩ := List.pairwise_cons.mp hl
    by_cases h : le a b = true
    · simp only [orderedInsertB, h, if_true]
      refine List.pairwise_cons.mpr ⟨?_, hl⟩
      intro x hx
      rcases List.mem_cons.mp hx with rfl | hx'
      · exact h
      · exact htrans h (hb x hx')
    · simp only [orderedInsertB, h, if_false]
      refine List.pairwise_cons.mpr ⟨?_, ih ht⟩
      intro x hx
      rcases mem_orderedInsertB.mp hx with rfl | hx'
      · rcases htot x b with h' | h'
        · exact absurd h' h
        · exact h'
      · exact hb x hx'

theorem pairwise_sortedBy {le : α → α → Bool}
    (htot : ∀ x y, le x y = true ∨ le y x = true)
    (htrans : ∀ {x y z}, le x y = true → le y z = true → le x z = true)
    (l : List α) : (sortedBy le l).Pairwise (fun x y => le x y = true) := by
  induction l with
  | nil => simp [sortedBy]
  | cons b t ih => exact pairwise_orderedInsertB htot htrans b ih

theorem sorted_perm_eq {le : α → α → Bool} :
    ∀ {l₁ l₂ : List α}, l₁.Perm l₂ → l₁.Pairwise (fun x y => le x y = true) →
      l₂.Pairwise (fun x y => le x y = true) →
      (∀ a ∈ l₁, ∀ b ∈ l₁, le a b = true → le b a = true → a = b) →
      l₁ = l₂ := by
  intro l₁
  induction l₁ with
  | nil =>
    intro l₂ hp _ _ _
    exact hp.nil_eq
  | cons a t ih =>
    intro l₂ hp hs₁ hs₂ hanti
    cases l₂ with
    | nil => exact absurd hp.symm (by simp)
    | cons b u =>
      have hab : a = b := by
        have ha2 : a ∈ b :: u := hp.mem_iff.mp (by simp)
        have hb1 : b ∈ a :: t := hp.mem_iff.mpr (by simp)
        rcases List.mem_cons.mp ha2 with h | ha
        · exact h
        · rcases List.mem_cons.mp hb1 with h | hb
          · exact h.symm
          · have h1 : le a b = true := (List.pairwise_cons.mp hs₁).1 b hb
            have h2 : le b a = true := (List.pairwise_cons.mp hs₂).1 a ha
            exact hanti a (by simp) b (by simp [hb]) h1 h2
      subst hab
      have ht : t.Perm u := hp.cons_inv
      have hrec : t = u := by
        refine ih ht (List.pairwise_cons.mp hs₁).2 (List.pairwise_cons.mp hs₂).2 ?_
        intro x hx y hy hxy hyx
        exact hanti x (by simp [hx]) y (by simp [hy]) hxy hyx
      rw [hrec]

theorem sortedBy_eq_of_perm {le : α → α → Bool}
    (htot : ∀ x y : α, le x y = true ∨ le y x = true)
    (htrans : ∀ {x y z : α}, le x y = true → le y z = true → le x z = true)
    {l l' : List α} (hp : l.Perm l')
    (hanti : ∀ a ∈ l, ∀ b ∈ l, le a b = true → le b a = true → a = b) :
    sortedBy le l = sortedBy le l' := by
  refine sorted_perm_eq ((perm_sortedBy le l).trans (hp.trans (perm_sortedBy le l').symm))
    (pairwise_sortedBy htot htrans l) (pairwise_sortedBy htot htrans l') ?_
  intro a ha b hb
  exact hanti a ((perm_sortedBy le l).mem_iff.mp ha) b ((perm_sortedBy le l).mem_iff.mp hb)

/-! ## Facts about run grouping -/

theorem groupRuns_cons_nil [DecidableEq κ] {key : α → κ} {a : α} {rest : List α}
    (h : groupRuns key rest = []) : groupRuns key (a :: rest) = [(key a, [a])] := by
  rw [groupRuns, h]

theorem groupRuns_cons_cons [DecidableEq κ] {key : α → κ} {a : α} {rest : List α}
    {k0 : κ} {g0 : List α} {gs : List (κ × List α)}
    (h : groupRuns key rest = (k0, g0) :: gs) :
    groupRuns key (a :: rest) =
      if key a = k0 then (k0, a :: g0) :: gs else (key a, [a]) :: (k0, g0) :: gs := by
  rw [groupRuns, h]

theorem groupRuns_mem [DecidableEq κ] {key : α → κ} :
    ∀ {l : List α} {k : κ} {g : List α}, (k, g) ∈ groupRuns key l →
      g ≠ [] ∧ (∀ x ∈ g, key x = k) ∧ ∀ x ∈ g, x ∈ l := by
  intro l
  induction l with
  | nil => intro k g h; simp [groupRuns] at h
  | cons a rest ih =>
    intro k g h
    cases hgr : groupRuns key rest with
    | nil =>
      rw [groupRuns_cons_nil hgr] at h
      simp only [List.mem_singleton, Prod.mk.injEq] at h
      obtain ⟨rfl, rfl⟩ := h
      exact ⟨by simp, by simp, by simp⟩
    | cons G gs =>
      obtain ⟨k0, g0⟩ := G
      rw [groupRuns_cons_cons hgr] at h
      by_cases hk : key a = k0
      · rw [if_pos hk] at h
        rcases List.mem_cons.mp h with heq | hmem
        · obtain ⟨rfl, rfl⟩ := Prod.mk.injEq .. |>.mp heq
          have h0 := ih (k := k) (g := g0) (by rw [hgr]; simp)
          refine ⟨by simp, ?_, ?_⟩
          · intro x hx
            rcases List.mem_cons.mp hx with rfl | hx2
            · exact hk
            · exact h0.2.1 x hx2
          · intro x hx
            rcases List.mem_cons.mp hx with rfl | hx2
            · simp
            · simp [h0.2.2 x hx2]
        · have h0 := ih (k := k) (g := g) (by rw [hgr]; simp [hmem])
          exact ⟨h0.1, h0.2.1, fun x hx => by simp [h0.2.2 x hx]⟩
      · rw [if_neg hk] at h
        rcases List.mem_cons.mp h with heq | hmem
        · obtain ⟨rfl, rfl⟩ := Prod.mk.injEq .. |>.mp heq
          exact ⟨by simp, by simp, by simp⟩
        · have h0 := ih (k := k) (g := g) (by rw [hgr]; exact hmem)
          exact ⟨h0.1, h0.2.1, fun x hx => by simp [h0.2.2 x hx]⟩

theorem groupRuns_group_pairwise [DecidableEq κ] {key : α → κ} {R : α → α → Prop} :
    ∀ {l : List α}, l.Pairwise R → ∀ {k : κ} {g : List α},
      (k, g) ∈ groupRuns key l → g.Pairwise R := by
  intro l
  induction l with
  | nil => intro _ k g h; simp [groupRuns] at h
  | cons a rest ih =>
    intro hp k g h
    obtain ⟨ha, hrest⟩ := List.pairwise_cons.mp hp
    cases hgr : groupRuns key rest with
    | nil =>
      rw [groupRuns_cons_nil hgr] at h
      simp only [List.mem_singleton, Prod.mk.injEq] at h
      obtain ⟨rfl, rfl⟩ := h
      simp
    | cons G gs =>
      obtain ⟨k0, g0⟩ := G
      rw [groupRuns_cons_cons hgr] at h
      by_cases hk : key a = k0
      · rw [if_pos hk] at h
        rcases List.mem_cons.mp h with heq | hmem
        · obtain ⟨rfl, rfl⟩ := Prod.mk.injEq .. |>.mp heq
          refine List.pairwise_cons.mpr
            ⟨?_, ih hrest (k := k) (g := g0) (by rw [hgr]; simp)⟩
          intro x hx
          have hsub := (groupRuns_mem (l := rest) (k := k) (g := g0)
            (by rw [hgr]; simp)).2.2
          exact ha x (hsub x hx)
        · exact ih hrest (k := k) (g := g) (by rw [hgr]; simp [hmem])
      · rw [if_neg hk] at h
        rcases List.mem_cons.mp h with heq | hmem
        · obtain ⟨rfl, rfl⟩ := Prod.mk.injEq .. |>.mp heq
          simp
        · exact ih hrest (k := k) (g := g) (by rw [hgr]; exact hmem)

theorem groupRuns_pairwise [DecidableEq κ] {key : α → κ} {R : α → α → Prop} :
    ∀ {l : List α}, l.Pairwise R →
      (groupRuns key l).Pairwise (fun G H => ∀ x ∈ G.2, ∀ y ∈ H.2, R x y) := by
  intro l
  induction l with
  | nil => simp [groupRuns]
  | cons a rest ih =>
    intro hp
    obtain ⟨ha, hrest⟩ := List.pairwise_cons.mp hp
    have hmemrest : ∀ H ∈ groupRuns key rest, ∀ y ∈ H.2, y ∈ rest := by
      intro H hH y hy
      exact (groupRuns_mem (k := H.1) (g := H.2) (by simpa using hH)).2.2 y hy
    cases hgr : groupRuns key rest with
    | nil =>
      rw [groupRuns_cons_nil hgr]
      simp
    | cons G gs =>
      obtain ⟨k0, g0⟩ := G
      have ihp := ih hrest
      rw [hgr] at ihp hmemrest
      rw [groupRuns_cons_cons hgr]
      by_cases hk : key a = k0
      · rw [if_pos hk]
        refine List.pairwise_cons.mpr ⟨?_, (List.pairwise_cons.mp ihp).2⟩
        intro H hH x hx y hy
        rcases List.mem_cons.mp hx with rfl | hx2
        · exact ha y (hmemrest H (by simp [hH]) y hy)
        · exact (List.pairwise_cons.mp ihp).1 H hH x hx2 y hy
      · rw [if_neg hk]
        refine List.pairwise_cons.mpr ⟨?_, ihp⟩
        intro H hH x hx y hy
        rcases List.mem_cons.mp hx with rfl | hx2
        · exact ha y (hmemrest H hH y hy)
        · simp at hx2

theorem groupRuns_chain_ne [DecidableEq κ] (key : α → κ) :
    ∀ l : List α, List.Chain' (fun G H : κ × List α => G.1 ≠ H.1) (groupRuns key l) := by
  intro l
  induction l with
  | nil => simp [groupRuns]
  | cons a rest ih =>
    cases hgr : groupRuns key rest with
    | nil =>
      rw [groupRuns_cons_nil hgr]
      simp
    | cons G gs =>
      obtain ⟨k0, g0⟩ := G
      rw [hgr] at ih
      rw [groupRuns_cons_cons hgr]
      by_cases hk : key a = k0
      · rw [if_pos hk]
        cases gs with
        | nil => simp
        | cons H t =>
          rw [List.chain'_cons] at ih ⊢
          exact ⟨ih.1, ih.2⟩
      · rw [if_neg hk]
        rw [List.chain'_cons]
        exact ⟨hk, ih⟩

theorem pairwise_lt_of_le_chain_ne {lt : κ → κ → Bool} {key : α → κ}
    (hasym : ∀ {x y : κ}, lt x y = true → lt y x = true → False) :
    ∀ {gs : List α},
      gs.Pairwise (fun G H => lt (key G) (key H) = true ∨ key G = key H) →
      List.Chain' (fun G H => key G ≠ key H) gs →
      gs.Pairwise (fun G H => lt (key G) (key H) = true) := by
  intro gs
  induction gs with
  | nil => simp
  | cons G rest ih =>
    intro hle hne
    obtain ⟨hG, hrest⟩ := List.pairwise_cons.mp hle
    refine List.pairwise_cons.mpr ⟨?_, ih hrest hne.tail⟩
    intro H hH
    cases rest with
    | nil => simp at hH
    | cons H0 t0 =>
      have hGH0 : lt (key G) (key H0) = true := by
        rcases hG H0 (by simp) with h | h
        · exact h
        · exact absurd h (List.chain'_cons.mp hne).1
      rcases List.mem_cons.mp hH with rfl | hH'
      · exact hGH0
      · rcases hG H (by simp [hH']) with h | h
        · exact h
        · rcases (List.pairwise_cons.mp hrest).1 H hH' with h2 | h2
          · exact absurd (h ▸ h2) (fun hcon => hasym hGH0 hcon)
          · exact absurd (h.trans h2.symm ▸ hGH0) (fun hcon => hasym hcon hcon)

/-! ## Facts about fallible mapping and the builders -/

theorem mapE_ok_forall₂ {f : α → Except ε β} :
    ∀ {l : List α} {l2 : List β}, mapE f l = .ok l2 →
      List.Forall₂ (fun a b => f a = .ok b) l l2 := by
  intro l
  induction l with
  | nil =>
    intro l2 h
    rw [mapE] at h
    cases h
    exact List.Forall₂.nil
  | cons a t ih =>
    intro l2 h
    rw [mapE] at h
    cases ha : f a with
    | error e => rw [ha] at h; cases h
    | ok b =>
      rw [ha] at h
      cases ht : mapE f t with
      | error e => rw [ht] at h; cases h
      | ok bs =>
        rw [ht] at h
        cases h
        exact List.Forall₂.cons ha (ih ht)

theorem forall₂_mem_right {R : α → β → Prop} :
    ∀ {l : List α} {l2 : List β}, List.Forall₂ R l l2 →
      ∀ b ∈ l2, ∃ a ∈ l, R a b := by
  intro l l2 h
  induction h with
  | nil => intro b hb; simp at hb
  | cons hR htail ih =>
    intro b hb
    rcases List.mem_cons.mp hb with rfl | hb2
    · exact ⟨_, by simp, hR⟩
    · obtain ⟨a, ha, hab⟩ := ih b hb2
      exact ⟨a, by simp [ha], hab⟩

theorem forall₂_pairwise {rel : α → β → Prop} {R : α → α → Prop} {S : β → β → Prop}
    (hcompat : ∀ a b a2 b2, rel a b → rel a2 b2 → R a a2 → S b b2) :
    ∀ {l : List α} {l2 : List β}, List.Forall₂ rel l l2 → l.Pairwise R → l2.Pairwise S := by
  intro l l2 h
  induction h with
  | nil => intro _; exact List.Pairwise.nil
  | cons hR htail ih =>
    intro hp
    obtain ⟨hhead, hrest⟩ := List.pairwise_cons.mp hp
    refine List.pairwise_cons.mpr ⟨?_, ih hrest⟩
    intro b2 hb2
    obtain ⟨a2, ha2, hab2⟩ := forall₂_mem_right htail b2 hb2
    exact hcompat _ _ _ _ hR hab2 (hhead a2 ha2)

theorem build_event_xml_ok {e : EngineeringEvent} {x : EventXml}
    (h : build_event_xml e = .ok x) :
    x.uniqueid = e.uid ∧ x.date = e.start.date ∧ x.startT = e.start.tod := by
  unfold build_event_xml at h
  by_cases hd : e.start.date = e.end_.date
  · rw [if_pos hd] at h
    cases h
    exact ⟨rfl, rfl, rfl⟩
  · rw [if_neg hd] at h
    cases h

theorem build_series_xml_ok {t p pa sn : String} {evs : List EngineeringEvent}
    {s : SeriesXml} (h : build_series_xml t p pa sn evs = .ok s) :
    s.name = sn ∧ List.Forall₂ (fun a x => build_event_xml a = .ok x) evs s.events := by
  unfold build_series_xml at h
  cases hm : mapE build_event_xml evs with
  | error e => rw [hm] at h; cases h
  | ok xs =>
    rw [hm] at h
    cases h
    exact ⟨rfl, mapE_ok_forall₂ hm⟩

theorem build_paper_xml_ok {t p pa : String} {evs : List EngineeringEvent}
    {m : ModuleXml} (h : build_paper_xml t p pa evs = .ok m) :
    m.tripos = t ∧ m.part = p ∧ m.name = pa ∧
      List.Forall₂ (fun kg s => build_series_xml t p pa kg.1 kg.2 = .ok s)
        (groupRuns (fun e => e.name) evs) m.series := by
  unfold build_paper_xml at h
  cases hm : mapE (fun kg => build_series_xml t p pa kg.1 kg.2)
      (groupRuns (fun e => e.name) evs) with
  | error e => rw [hm] at h; cases h
  | ok ss =>
    rw [hm] at h
    cases h
    exact ⟨rfl, rfl, rfl, mapE_ok_forall₂ hm⟩

theorem build_part_xml_ok {t p : String} {evs : List EngineeringEvent}
    {ms : List ModuleXml} (h : build_part_xml t p evs = .ok ms) :
    List.Forall₂ (fun kg m => build_paper_xml t p kg.1 kg.2 = .ok m)
      (groupRuns (fun e => e.paper) evs) ms := by
  unfold build_part_xml at h
  exact mapE_ok_forall₂ h

/-- Lexicographic `(part, paper)` comparison between emitted modules (the
module's `name` element holds its paper). -/
def moduleLe (m1 m2 : ModuleXml) : Prop :=
  strLt m1.part m2.part = true ∨
    (m1.part = m2.part ∧ (strLt m1.name m2.name = true ∨ m1.name = m2.name))

/-- Chronological comparison between emitted event elements. -/
def entryLe (x y : EventXml) : Prop :=
  x.date < y.date ∨ (x.date = y.date ∧ x.startT ≤ y.startT)

/-- C3 (amended): on a collection whose composite sort keys are
pairwise-distinct, re-running the assembler on any permutation yields the
identical result, the tree's modules are ordered by `(part, paper)`
ascending, and the events of every series appear in chronological order.
(Without key-distinctness the stable sort preserves the input order of
key-tied events, so a permutation can change the tree — see the
counterexample.) -/
theorem build_timetable_xml_tree_props (tripos : String) (l l' : List EngineeringEvent)
    (_hne : l ≠ []) (hperm : l.Perm l')
    (hinj : ∀ a ∈ l, ∀ b ∈ l, event_sort_key a = event_sort_key b → a = b) :
    build_timetable_xml tripos l' = build_timetable_xml tripos l ∧
    ∀ tree, build_timetable_xml tripos l = .ok tree →
      tree.Pairwise moduleLe ∧
      ∀ m ∈ tree, ∀ s ∈ m.series, s.events.Pairwise entryLe := by
  have hanti : ∀ a ∈ l, ∀ b ∈ l, evLe a b = true → evLe b a = true → a = b :=
    fun a ha b hb h1 h2 => hinj a ha b hb (evLe_antisymm_key h1 h2)
  constructor
  · have hsort : sortedBy evLe l = sortedBy evLe l' :=
      sortedBy_eq_of_perm evLe_total (fun h1 h2 => evLe_trans h1 h2) hperm hanti
    unfold build_timetable_xml
    rw [← hsort]
  · intro tree htree
    unfold build_timetable_xml at htree
    by_cases hemp : (sortedBy evLe l).isEmpty = true
    · rw [if_pos hemp] at htree; cases htree
    · rw [if_neg hemp] at htree
      cases hmap : mapE (fun kg => build_part_xml tripos kg.1 kg.2)
          (groupRuns (fun e => e.part) (sortedBy evLe l)) with
      | error err => rw [hmap] at htree; cases htree
      | ok modLists =>
        rw [hmap] at htree
        have htr : modLists.flatten = tree := Except.ok.inj htree
        subst htr
        have hLsorted : (sortedBy evLe l).Pairwise (fun x y => evLe x y = true) :=
          pairwise_sortedBy evLe_total (fun h1 h2 => evLe_trans h1 h2) l
        have hf2 := mapE_ok_forall₂ hmap
        have hmodpart : ∀ (G : String × List EngineeringEvent) ms,
            build_part_xml tripos G.1 G.2 = .ok ms → ∀ m ∈ ms, m.part = G.1 := by
          intro G ms hok m hm
          obtain ⟨kg, _, hpok⟩ := forall₂_mem_right (build_part_xml_ok hok) m hm
          exact (build_paper_xml_ok hpok).2.1
        constructor
        · -- modules ordered by (part, paper)
          refine List.pairwise_flatten.mpr ⟨?_, ?_⟩
          · intro ms hms
            obtain ⟨G, hG, hok⟩ := forall₂_mem_right hf2 ms hms
            have hGsorted : G.2.Pairwise (fun x y => evLe x y = true) :=
              groupRuns_group_pairwise hLsorted (k := G.1) (g := G.2) (by simpa using hG)
            have hGparts := (groupRuns_mem (k := G.1) (g := G.2) (by simpa using hG)).2.1
            have hpapKeysLe : (groupRuns (fun e => e.paper) G.2).Pairwise
                (fun K1 K2 => strLt K1.1 K2.1 = true ∨ K1.1 = K2.1) := by
              refine (groupRuns_pairwise hGsorted).imp_of_mem ?_
              intro K1 K2 hK1 hK2 hrel
              obtain ⟨hne1, hkey1, hsub1⟩ :=
                groupRuns_mem (k := K1.1) (g := K1.2) (by simpa using hK1)
              obtain ⟨hne2, hkey2, hsub2⟩ :=
                groupRuns_mem (k := K2.1) (g := K2.2) (by simpa using hK2)
              obtain ⟨x, hx⟩ := List.exists_mem_of_ne_nil _ hne1
              obtain ⟨y, hy⟩ := List.exists_mem_of_ne_nil _ hne2
              have hle := hrel x hx y hy
              have hparts : x.part = y.part := by
                rw [hGparts x (hsub1 x hx), hGparts y (hsub2 y hy)]
              have := evLe_paper_le hle hparts
              rwa [hkey1 x hx, hkey2 y hy] at this
            refine forall₂_pairwise ?_ (build_part_xml_ok hok) hpapKeysLe
            intro kg1 m1 kg2 m2 h1 h2 hrel
            have p1 := build_paper_xml_ok h1
            have p2 := build_paper_xml_ok h2
            exact Or.inr ⟨p1.2.1.trans p2.2.1.symm,
              by rw [p1.2.2.1, p2.2.2.1]; exact hrel⟩
          · -- across part groups: parts strictly ascend
            have hkeysLe : (groupRuns (fun e => e.part) (sortedBy evLe l)).Pairwise
                (fun G H => strLt G.1 H.1 = true ∨ G.1 = H.1) := by
              refine (groupRuns_pairwise hLsorted).imp_of_mem ?_
              intro G H hG hH hrel
              obtain ⟨hne1, hkey1, _⟩ :=
                groupRuns_mem (k := G.1) (g := G.2) (by simpa using hG)
              obtain ⟨hne2, hkey2, _⟩ :=
                groupRuns_mem (k := H.1) (g := H.2) (by simpa using hH)
              obtain ⟨x, hx⟩ := List.exists_mem_of_ne_nil _ hne1
              obtain ⟨y, hy⟩ := List.exists_mem_of_ne_nil _ hne2
              have := evLe_part_le (hrel x hx y hy)
              rwa [hkey1 x hx, hkey2 y hy] at this
            have hkeysLt := @pairwise_lt_of_le_chain_ne String
              (String × List EngineeringEvent) strLt Prod.fst
              (fun hx hy => strLt_asymm hx hy) _ hkeysLe
              (groupRuns_chain_ne (fun e => e.part) (sortedBy evLe l))
            refine forall₂_pairwise ?_ hf2 hkeysLt
            intro G1 ms1 G2 ms2 h1 h2 hlt m1 hm1 m2 hm2
            exact Or.inl
              (by rw [hmodpart G1 ms1 h1 m1 hm1, hmodpart G2 ms2 h2 m2 hm2]; exact hlt)
        · -- events of each series in chronological order
          intro m hm s hs
          obtain ⟨ms, hms, hmms⟩ := List.mem_flatten.mp hm
          obtain ⟨G, hG, hok⟩ := forall₂_mem_right hf2 ms hms
          have hGfacts := groupRuns_mem (k := G.1) (g := G.2) (by simpa using hG)
          have hGsorted : G.2.Pairwise (fun x y => evLe x y = true) :=
            groupRuns_group_pairwise hLsorted (k := G.1) (g := G.2) (by simpa using hG)
          obtain ⟨kg, hkg, hpok⟩ := forall₂_mem_right (build_part_xml_ok hok) m hmms
          have hkgfacts := groupRuns_mem (k := kg.1) (g := kg.2) (by simpa using hkg)
          have hkgsorted : kg.2.Pairwise (fun x y => evLe x y = true) :=
            groupRuns_group_pairwise hGsorted (k := kg.1) (g := kg.2) (by simpa using hkg)
          obtain ⟨ng, hng, hsok⟩ :=
            forall₂_mem_right (build_paper_xml_ok hpok).2.2.2 s hs
          have hngfacts := groupRuns_mem (k := ng.1) (g := ng.2) (by simpa using hng)
          have hngsorted : ng.2.Pairwise (fun x y => evLe x y = true) :=
            groupRuns_group_pairwise hkgsorted (k := ng.1) (g := ng.2) (by simpa using hng)
          have hpartconst : ∀ x ∈ ng.2, x.part = G.1 := fun x hx =>
            hGfacts.2.1 x (hkgfacts.2.2 x (hngfacts.2.2 x hx))
          have hpaperconst : ∀ x ∈ ng.2, x.paper = kg.1 := fun x hx =>
            hkgfacts.2.1 x (hngfacts.2.2 x hx)
          have hnameconst : ∀ x ∈ ng.2, x.name = ng.1 := hngfacts.2.1
          have hR : ng.2.Pairwise (fun a b => evLe a b = true ∧
              a.part = b.part ∧ a.paper = b.paper ∧ a.name = b.name) := by
            refine hngsorted.imp_of_mem ?_
            intro a b ha hb hle
            exact ⟨hle, (hpartconst a ha).trans (hpartconst b hb).symm,
              (hpaperconst a ha).trans (hpaperconst b hb).symm,
              (hnameconst a ha).trans (hnameconst b hb).symm⟩
          refine forall₂_pairwise ?_ (build_series_xml_ok hsok).2 hR
          intro a x b y hax hby hR1
          obtain ⟨hle, hp, hpa, hn⟩ := hR1
          have hdt := evLe_start_le hle hp hpa hn
          have ex := build_event_xml_ok hax
          have ey := build_event_xml_ok hby
          unfold entryLe
          rw [ex.2.1, ex.2.2, ey.2.1, ey.2.2]
          simp only [dtLe, Bool.or_eq_true, Bool.and_eq_true, decide_eq_true_eq] at hdt
          exact hdt

/-- Two events sharing the whole composite sort key, differing only in uid. -/
def evDup1 : EngineeringEvent :=
  { part := "1", paper := "CW", name := "Example", event_type := "L",
    staff_name := "Dr Smith", location := "LR1",
    start := ⟨19738, 32400⟩, end_ := ⟨19738, 36000⟩, uid := "u1" }

/-- As `evDup1` but another uid. -/
def evDup2 : EngineeringEvent := { evDup1 with uid := "u2" }

/-- The event uniqueids of an assembled tree, in emission order. -/
def treeEventUids (r : Except BuildError (List ModuleXml)) : Option (List String) :=
  match r with
  | .error _ => none
  | .ok ms => some (ms.flatMap fun m => m.series.flatMap fun s => s.events.map fun x => x.uniqueid)

/-- Counterexample to C3 as stated: with two events tied on the whole sort
key the stable sort preserves input order, so the two orderings of the same
collection assemble to different trees (the event children swap). -/
theorem build_timetable_xml_order_dependent :
    ([evDup1, evDup2].Perm [evDup2, evDup1]) ∧
    treeEventUids (build_timetable_xml "t" [evDup1, evDup2]) = some ["u1", "u2"] ∧
    treeEventUids (build_timetable_xml "t" [evDup2, evDup1]) = some ["u2", "u1"] ∧
    build_timetable_xml "t" [evDup1, evDup2] ≠ build_timetable_xml "t" [evDup2, evDup1] := by
  refine ⟨List.Perm.swap evDup2 evDup1 [], ?_, ?_, ?_⟩
  · rfl
  · rfl
  · intro h
    have hu := congrArg treeEventUids h
    rw [show treeEventUids (build_timetable_xml "t" [evDup1, evDup2])
          = some ["u1", "u2"] from rfl,
        show treeEventUids (build_timetable_xml "t" [evDup2, evDup1])
          = some ["u2", "u1"] from rfl] at hu
    simp at hu

/-- Two events with distinct sort keys (different start times). -/
def evW1 : EngineeringEvent :=
  { evDup1 with start := ⟨19738, 100⟩, end_ := ⟨19738, 200⟩, uid := "a" }

/-- As `evW1`, later the same day. -/
def evW2 : EngineeringEvent :=
  { evDup1 with start := ⟨19738, 300⟩, end_ := ⟨19738, 400⟩, uid := "b" }

/-- Witness for C3 (amended) on a two-event collection with distinct keys. -/
theorem build_timetable_xml_tree_props_witness :
    build_timetable_xml "t" [evW2, evW1] = build_timetable_xml "t" [evW1, evW2] ∧
    ∀ tree, build_timetable_xml "t" [evW1, evW2] = .ok tree →
      tree.Pairwise moduleLe ∧ ∀ m ∈ tree, ∀ s ∈ m.series, s.events.Pairwise entryLe :=
  build_timetable_xml_tree_props "t" [evW1, evW2] [evW2, evW1] (by simp)
    (List.Perm.swap evW2 evW1 []) (by decide)
